import Mathlib

/-!
Shallow embedding of the SSED file-upload service
(`src/JS/A6_Fileupload/server.js`) and proofs about its specified
properties.  JS strings are modelled as Lean `String`/`List Char`,
the rate-limiter map and the upload directory's contents as functions,
and `Date.now()` / the random hex hash as explicit arguments.
-/

/-- Characters kept unchanged by the sanitizer's first step: the JS
character class `[a-zA-Z0-9._-]`. -/
def allowedChar (c : Char) : Bool :=
  c.isAlpha || c.isDigit || c == '.' || c == '_' || c == '-'

/-- `fileName.replace(/[^a-zA-Z0-9._-]/g, '_')`. -/
def replaceDisallowed (l : List Char) : List Char :=
  l.map (fun c => if allowedChar c then c else '_')

/-- `.replace(/\.\./g, '')`: the JS global regex replace scans left to
right, removing each non-overlapping `..` match. -/
def removeDotDot : List Char → List Char
  | [] => []
  | [c] => [c]
  | a :: b :: rest =>
    if a = '.' ∧ b = '.' then removeDotDot rest
    else a :: removeDotDot (b :: rest)

/-- `.replace(/^\.+/, '')`. -/
def dropLeadingDots (l : List Char) : List Char :=
  l.dropWhile (· == '.')

/-- Whitespace as removed by JS `String.prototype.trim` (restricted to
the ASCII whitespace characters; the sanitizer's earlier steps leave no
whitespace at all, so the exact set is immaterial). -/
def isWS (c : Char) : Bool :=
  c == ' ' || c == '\t' || c == '\n' || c == '\r'

/-- JS `.trim()`. -/
def trimJS (l : List Char) : List Char :=
  ((l.dropWhile isWS).reverse.dropWhile isWS).reverse

/-- The chain of string operations of `sanitizeFileName` before the
random hash is attached. -/
def cleanup (l : List Char) : List Char :=
  trimJS (dropLeadingDots (removeDotDot (replaceDisallowed l)))

/-- Index of the last `'.'` in a list of characters, if any. -/
def lastDotIdx : List Char → Option Nat
  | [] => none
  | c :: rest =>
    match lastDotIdx rest with
    | some i => some (i + 1)
    | none => if c == '.' then some 0 else none

/-- Node `path.posix` ignores trailing `'/'` characters. -/
def stripTrailingSlashes (l : List Char) : List Char :=
  (l.reverse.dropWhile (· == '/')).reverse

/-- The portion of a path after its last `'/'`. -/
def lastComponent (l : List Char) : List Char :=
  (l.reverse.takeWhile (· != '/')).reverse

/-- Extension of a basename, following Node `path.extname`: the suffix
starting at the last `'.'`, except that a `'.'` that starts the
basename does not begin an extension and `".."` has none. -/
def extOfBase (b : List Char) : List Char :=
  match lastDotIdx b with
  | none => []
  | some i => if i = 0 then [] else if b = ['.', '.'] then [] else b.drop i

/-- Node `path.extname` (posix). -/
def jsExtname (s : String) : String :=
  ⟨extOfBase (lastComponent (stripTrailingSlashes s.data))⟩

/-- Node `path.basename(p, ext)` (posix): the last path component, with
`ext` removed when it is a proper suffix. -/
def jsBasename (s ext : String) : String :=
  let b := lastComponent (stripTrailingSlashes s.data)
  if ext.data ≠ [] ∧ ext.data.isSuffixOf b ∧ b ≠ ext.data then
    ⟨b.take (b.length - ext.data.length)⟩
  else ⟨b⟩

/-- `sanitizeFileName` from server.js.  The random hex hash that the
source draws from `crypto.randomBytes(8).toString('hex')` is passed in
as the `hash` argument. -/
def sanitizeFileName (fileName hash : String) : String :=
  let sanitized : String := ⟨cleanup fileName.data⟩
  let ext := jsExtname sanitized
  let nameWithoutExt := jsBasename sanitized ext
  nameWithoutExt ++ "_" ++ hash ++ ext

/-- The Filename Sanitizer reference algorithm exactly as spec §4.3
words it: replace every character outside `[A-Za-z0-9._-]` with `_`;
remove all `..` substrings; strip leading `.` characters; split the
result into base name and extension; append the random suffix to the
base name; reassemble as `base_suffix.ext`. -/
def sanitizeSpecAlg (fileName hash : String) : String :=
  let step1 := replaceDisallowed fileName.data
  let step2 := removeDotDot step1
  let step3 := step2.dropWhile (· == '.')
  match lastDotIdx step3 with
  | none => ⟨step3 ++ '_' :: hash.data⟩
  | some i => ⟨step3.take i ++ '_' :: hash.data ++ step3.drop i⟩

/-- The characters `crypto.randomBytes(n).toString('hex')` can
produce. -/
def isHexChar (c : Char) : Bool :=
  c.isDigit || c == 'a' || c == 'b' || c == 'c' || c == 'd' || c == 'e' || c == 'f'

/-- `ALLOWED_MIME_TYPES` from server.js. -/
def ALLOWED_MIME_TYPES : List String :=
  ["image/jpeg", "image/jpg", "image/png", "image/gif", "application/pdf", "text/plain"]

/-- `ALLOWED_EXTENSIONS` from server.js. -/
def ALLOWED_EXTENSIONS : List String :=
  [".jpg", ".jpeg", ".png", ".gif", ".pdf", ".txt"]

/-- `MAX_FILE_SIZE` from server.js: 5 MB in bytes. -/
def MAX_FILE_SIZE : Nat := 5 * 1024 * 1024

/-- `MAX_UPLOADS_PER_MINUTE` from server.js. -/
def MAX_UPLOADS_PER_MINUTE : Nat := 10

/-- `RATE_LIMIT_WINDOW` from server.js: one minute in milliseconds. -/
def RATE_LIMIT_WINDOW : Int := 60 * 1000

/-- `isAllowedMimeType` from server.js. -/
def isAllowedMimeType (mimetype : String) : Bool :=
  ALLOWED_MIME_TYPES.contains mimetype

/-- JS `String.prototype.toLowerCase` (ASCII range), character by
character. -/
def jsToLower (s : String) : String :=
  ⟨s.data.map Char.toLower⟩

/-- `isAllowedExtension` from server.js. -/
def isAllowedExtension (filename : String) : Bool :=
  ALLOWED_EXTENSIONS.contains (jsToLower (jsExtname filename))

/-- The `uploadAttempts` map: client IP to recorded upload timestamps
(milliseconds). -/
abbrev RLState := String → List Int

/-- `checkRateLimit` from server.js.  `Date.now()` is the `now`
argument; the mutated `uploadAttempts` map is returned. -/
def checkRateLimit (ip : String) (now : Int) (st : RLState) : Bool × RLState :=
  let userAttempts := st ip
  let recentAttempts := userAttempts.filter (fun t => now - t < RATE_LIMIT_WINDOW)
  if MAX_UPLOADS_PER_MINUTE ≤ recentAttempts.length then
    (false, st)
  else
    (true, fun k => if k = ip then recentAttempts ++ [now] else st k)

/-- Runs `checkRateLimit` once per timestamp in `ts`, threading the
state; returns the list of verdicts and the final state. -/
def runRL (ip : String) (ts : List Int) (st : RLState) : List Bool × RLState :=
  match ts with
  | [] => ([], st)
  | t :: rest =>
    let r := checkRateLimit ip t st
    let rr := runRL ip rest r.2
    (r.1 :: rr.1, rr.2)

/-- multer's view of the incoming file when `fileFilter` runs. -/
structure IncomingFile where
  originalname : String
  mimetype : String
  size : Nat

/-- The message built for a disallowed extension in `fileFilter`. -/
def extErrorMsg : String :=
  "Dateityp nicht erlaubt. Erlaubte Typen: " ++ String.intercalate ", " ALLOWED_EXTENSIONS

/-- The message built for a disallowed MIME type in `fileFilter`. -/
def mimeErrorMsg : String :=
  "MIME-Type nicht erlaubt. Erlaubte Typen: " ++ String.intercalate ", " ALLOWED_MIME_TYPES

/-- The multer `fileFilter` callback from server.js. -/
def fileFilter (file : IncomingFile) : Except String Unit :=
  if !isAllowedExtension file.originalname then
    Except.error extErrorMsg
  else if !isAllowedMimeType file.mimetype then
    Except.error mimeErrorMsg
  else
    Except.ok ()

/-- `req.file` as multer's disk storage populates it. -/
structure ReqFile where
  originalname : String
  mimetype : String
  size : Nat
  filename : String
  path : String

/-- `checkFileSize` from server.js. -/
def checkFileSize (file : ReqFile) : Bool :=
  file.size ≤ MAX_FILE_SIZE

/-- The JSON response: HTTP status, `success` flag and, on success, the
`filename` and `size` fields of the reported file object. -/
structure UploadResponse where
  status : Nat
  success : Bool
  filename : Option String := none
  size : Option Nat := none

/-- Contents of the filesystem under the upload directory: absolute
path to stored byte length. -/
abbrev Disk := String → Option Nat

/-- The final `POST /upload` handler (server.js lines 245-296): missing
file check, then the second size check, which unlinks the stored file
before answering 400. -/
def uploadFinalHandler (rf : Option ReqFile) (disk : Disk) : UploadResponse × Disk :=
  match rf with
  | none => ({ status := 400, success := false }, disk)
  | some f =>
    if !checkFileSize f then
      ({ status := 400, success := false }, fun q => if q = f.path then none else disk q)
    else
      ({ status := 200, success := true, filename := some f.filename, size := some f.size },
        disk)

/-- The whole `POST /upload` pipeline: the rate-limit middleware, then
multer (`fileFilter`, the streaming `limits.fileSize` check, disk
storage under the sanitized name), then the final handler.  multer
removes anything it wrote before reporting an error, so its failing
branches leave the disk unchanged (spec §3: a rejected `IncomingFile`
is discarded including any partially written disk artifact). -/
def handleUploadPost (uploadDir ip : String) (now : Int) (upload : Option IncomingFile)
    (hash : String) (st : RLState) (disk : Disk) : UploadResponse × RLState × Disk :=
  let c := checkRateLimit ip now st
  if !c.1 then ({ status := 429, success := false }, c.2, disk)
  else
    match upload with
    | none =>
      let r := uploadFinalHandler none disk
      (r.1, c.2, r.2)
    | some f =>
      match fileFilter f with
      | Except.error _ => ({ status := 400, success := false }, c.2, disk)
      | Except.ok _ =>
        if MAX_FILE_SIZE < f.size then
          ({ status := 400, success := false }, c.2, disk)
        else
          let stored := sanitizeFileName f.originalname hash
          let p := uploadDir ++ "/" ++ stored
          let disk2 : Disk := fun q => if q = p then some f.size else disk q
          let rf : ReqFile :=
            { originalname := f.originalname, mimetype := f.mimetype, size := f.size,
              filename := stored, path := p }
          let r := uploadFinalHandler (some rf) disk2
          (r.1, c.2, r.2)

/-- Split a character list at `'/'` characters. -/
def splitSeg : List Char → List (List Char)
  | [] => [[]]
  | c :: rest =>
    if c = '/' then [] :: splitSeg rest
    else
      match splitSeg rest with
      | s :: ss => (c :: s) :: ss
      | [] => [[c]]

/-- One step of lexical path normalization: empty and `.` segments are
dropped, `..` pops the stack, anything else is pushed. -/
def resolveStep (acc : List (List Char)) (seg : List Char) : List (List Char) :=
  if seg = [] ∨ seg = ['.'] then acc
  else if seg = ['.', '.'] then acc.dropLast
  else acc ++ [seg]

/-- Joins normalized segments back together with `'/'`. -/
def renderSegs : List (List Char) → List Char
  | [] => []
  | s :: rest => if rest = [] then s else s ++ '/' :: renderSegs rest

/-- Node `path.resolve` applied to an already absolute path: purely
lexical normalization of the segments. -/
def resolvePath (p : String) : String :=
  ⟨'/' :: renderSegs ((splitSeg p.data).foldl resolveStep [])⟩

/-- JS `String.prototype.startsWith`. -/
def jsStartsWith (s pre : String) : Bool :=
  pre.data.isPrefixOf s.data

/-- Outcome of `GET /uploads/:filename`. -/
inductive GetResult where
  | notFound
  | forbidden
  | served (p : String)
deriving DecidableEq

/-- The `GET /uploads/:filename` handler (server.js lines 299-322);
`fsExists` is the filesystem oracle behind `fs.existsSync`. -/
def getUploadsHandler (uploadDir requested hash : String) (fsExists : String → Bool) :
    GetResult :=
  let filename := sanitizeFileName requested hash
  let filePath := uploadDir ++ "/" ++ filename
  if !fsExists filePath then GetResult.notFound
  else
    let resolvedPath := resolvePath filePath
    let resolvedDir := resolvePath uploadDir
    if !jsStartsWith resolvedPath resolvedDir then GetResult.forbidden
    else GetResult.served resolvedPath

/-! ### Generic list helpers -/

/-- No two adjacent dots anywhere in the list: exactly the absence of a
`".."` substring. -/
def NoDD (l : List Char) : Prop :=
  List.Chain' (fun a b => ¬(a = '.' ∧ b = '.')) l

theorem dropWhile_eq_self_of_none {p : Char → Bool} {l : List Char}
    (h : ∀ c ∈ l, p c = false) : l.dropWhile p = l := by
  cases l with
  | nil => rfl
  | cons c t => simp [List.dropWhile_cons, h c (by simp)]

theorem takeWhile_eq_self_of_all {p : Char → Bool} {l : List Char}
    (h : ∀ c ∈ l, p c = true) : l.takeWhile p = l := by
  induction l with
  | nil => rfl
  | cons c t ih =>
    simp only [List.takeWhile_cons, h c (by simp), if_true]
    exact congrArg (c :: ·) (ih fun x hx => h x (by simp [hx]))

theorem mem_of_mem_dropWhile {p : Char → Bool} {l : List Char} {c : Char}
    (h : c ∈ l.dropWhile p) : c ∈ l :=
  (List.dropWhile_sublist p).mem h

theorem isPrefixOf_append_self (l t : List Char) : l.isPrefixOf (l ++ t) = true := by
  induction l with
  | nil => simp [List.isPrefixOf]
  | cons c r ih => simp [List.isPrefixOf, ih]

theorem isSuffixOf_append_self (l t : List Char) : t.isSuffixOf (l ++ t) = true := by
  have h := isPrefixOf_append_self t.reverse l.reverse
  simp only [List.isSuffixOf, List.reverse_append]
  exact h

theorem noDD_of_no_dot {l : List Char} (h : ∀ c ∈ l, c ≠ '.') : NoDD l := by
  induction l with
  | nil => simp [NoDD]
  | cons c t ih =>
    rw [NoDD, List.chain'_cons']
    refine ⟨fun y _ hy => h c (by simp) hy.1, ih fun x hx => h x (by simp [hx])⟩

theorem not_dotdot_infix_of_noDD {l : List Char} (h : NoDD l) :
    ¬ ['.', '.'] <:+: l := by
  rintro ⟨u, v, rfl⟩
  rw [NoDD, List.append_assoc] at h
  have h1 := h.right_of_append
  rw [show ['.', '.'] ++ v = '.' :: '.' :: v from rfl, List.chain'_cons] at h1
  exact h1.1 ⟨rfl, rfl⟩

/-! ### removeDotDot -/

theorem removeDotDot_head_of_ne {b : Char} (r : List Char) (hb : b ≠ '.') :
    (removeDotDot (b :: r)).head? = some b := by
  cases r with
  | nil => simp [removeDotDot]
  | cons x t => rw [removeDotDot, if_neg fun hc => hb hc.1]; rfl

theorem noDD_removeDotDot (l : List Char) : NoDD (removeDotDot l) := by
  induction l using removeDotDot.induct with
  | case1 => simp [removeDotDot, NoDD]
  | case2 c => simp [removeDotDot, NoDD]
  | case3 a b rest h ih => simpa [removeDotDot, h] using ih
  | case4 a b rest h ih =>
    rw [removeDotDot, if_neg h, NoDD, List.chain'_cons']
    refine ⟨?_, ih⟩
    rintro y hy ⟨ha, hy'⟩
    have hb : b ≠ '.' := fun hb => h ⟨ha, hb⟩
    rw [removeDotDot_head_of_ne rest hb] at hy
    exact hb (by cases hy; exact hy')

theorem removeDotDot_sublist (l : List Char) : List.Sublist (removeDotDot l) l := by
  induction l using removeDotDot.induct with
  | case1 => simp [removeDotDot]
  | case2 c => simp [removeDotDot]
  | case3 a b rest h ih =>
    rw [removeDotDot, if_pos h]
    exact ih.trans ((List.sublist_cons_self b rest).trans (List.sublist_cons_self a _))
  | case4 a b rest h ih =>
    rw [removeDotDot, if_neg h]
    exact ih.cons₂ a

theorem removeDotDot_eq_self_of_noDD {l : List Char} (h : NoDD l) :
    removeDotDot l = l := by
  induction l using removeDotDot.induct with
  | case1 => rfl
  | case2 c => rfl
  | case3 a b rest hab ih =>
    exfalso
    rw [NoDD, List.chain'_cons] at h
    exact h.1 hab
  | case4 a b rest hab ih =>
    rw [removeDotDot, if_neg hab, ih (List.Chain'.tail h)]

/-! ### cleanup: character-level invariants -/

theorem data_mk (l : List Char) : (⟨l⟩ : String).data = l := rfl

theorem mem_replaceDisallowed {l : List Char} {c : Char}
    (h : c ∈ replaceDisallowed l) : allowedChar c = true := by
  rw [replaceDisallowed] at h
  obtain ⟨x, _, hx⟩ := List.mem_map.1 h
  by_cases hax : allowedChar x
  · rw [if_pos hax] at hx
    rwa [← hx]
  · rw [if_neg hax] at hx
    rw [← hx]
    decide

theorem mem_cleanup {l : List Char} {c : Char} (h : c ∈ cleanup l) :
    allowedChar c = true := by
  rw [cleanup, trimJS] at h
  rw [List.mem_reverse] at h
  have h2 := (List.mem_reverse).1 (mem_of_mem_dropWhile h)
  have h3 := mem_of_mem_dropWhile h2
  rw [dropLeadingDots] at h3
  exact mem_replaceDisallowed ((removeDotDot_sublist _).mem (mem_of_mem_dropWhile h3))

theorem allowed_not_ws {c : Char} (h : allowedChar c = true) : isWS c = false := by
  by_contra hws
  rw [Bool.not_eq_false, isWS] at hws
  have hcs : ((c = ' ' ∨ c = '\t') ∨ c = '\n') ∨ c = '\r' := by simpa using hws
  rcases hcs with ((rfl | rfl) | rfl) | rfl <;> exact absurd h (by decide)

theorem trimJS_eq_self {l : List Char} (h : ∀ c ∈ l, allowedChar c = true) :
    trimJS l = l := by
  rw [trimJS]
  rw [dropWhile_eq_self_of_none fun c hc => allowed_not_ws (h c hc)]
  rw [dropWhile_eq_self_of_none fun c hc =>
    allowed_not_ws (h c ((List.mem_reverse).1 hc))]
  exact List.reverse_reverse l

/-- The first step never produces whitespace, so the source's final
`.trim()` is the identity: `cleanup` is exactly the three replaces. -/
theorem cleanup_eq (l : List Char) :
    cleanup l = dropLeadingDots (removeDotDot (replaceDisallowed l)) := by
  rw [cleanup]
  apply trimJS_eq_self
  intro c hc
  rw [dropLeadingDots] at hc
  exact mem_replaceDisallowed ((removeDotDot_sublist _).mem (mem_of_mem_dropWhile hc))

theorem noDD_cleanup (l : List Char) : NoDD (cleanup l) := by
  rw [cleanup_eq, dropLeadingDots]
  obtain ⟨t, ht⟩ := List.dropWhile_suffix (l := removeDotDot (replaceDisallowed l))
    (fun c => c == '.')
  have hdd := noDD_removeDotDot (replaceDisallowed l)
  rw [NoDD] at hdd ⊢
  rw [← ht] at hdd
  exact hdd.right_of_append

theorem head_dropWhile_not {p : Char → Bool} {l : List Char} {c : Char}
    (h : (l.dropWhile p).head? = some c) : p c = false := by
  induction l with
  | nil => simp [List.dropWhile] at h
  | cons a t ih =>
    rw [List.dropWhile_cons] at h
    by_cases hp : p a
    · rw [if_pos hp] at h
      exact ih h
    · rw [if_neg hp] at h
      have hac : a = c := by simpa using h
      rw [← hac]
      exact Bool.eq_false_iff.2 hp

theorem cleanup_head {l : List Char} {c : Char} (h : (cleanup l).head? = some c) :
    c ≠ '.' := by
  rw [cleanup_eq, dropLeadingDots] at h
  have := head_dropWhile_not h
  simpa using this

/-! ### lastDotIdx -/

theorem lastDotIdx_lt_length {l : List Char} {i : Nat} (h : lastDotIdx l = some i) :
    i < l.length := by
  induction l generalizing i with
  | nil => simp [lastDotIdx] at h
  | cons c t ih =>
    rw [lastDotIdx] at h
    cases ht : lastDotIdx t with
    | some j =>
      rw [ht] at h
      have hij : i = j + 1 := by simpa using h.symm
      have := ih ht
      simp [hij]
      omega
    | none =>
      rw [ht] at h
      by_cases hc : c == '.'
      · rw [if_pos hc] at h
        have : i = 0 := by simpa using h.symm
        simp [this]
      · rw [if_neg hc] at h
        cases h

theorem lastDotIdx_zero_head {l : List Char} (h : lastDotIdx l = some 0) :
    l.head? = some '.' := by
  cases l with
  | nil => simp [lastDotIdx] at h
  | cons c t =>
    rw [lastDotIdx] at h
    cases ht : lastDotIdx t with
    | some j =>
      rw [ht] at h
      simp at h
    | none =>
      rw [ht] at h
      by_cases hc : c == '.'
      · have : c = '.' := by simpa using hc
        simp [this]
      · rw [if_neg hc] at h
        cases h

/-! ### path component helpers -/

theorem stripTrailingSlashes_eq_self {l : List Char} (h : ∀ c ∈ l, c ≠ '/') :
    stripTrailingSlashes l = l := by
  have hd : l.reverse.dropWhile (· == '/') = l.reverse :=
    dropWhile_eq_self_of_none fun c hc => by
      simpa using h c ((List.mem_reverse).1 hc)
  rw [stripTrailingSlashes, hd, List.reverse_reverse]

theorem lastComponent_eq_self {l : List Char} (h : ∀ c ∈ l, c ≠ '/') :
    lastComponent l = l := by
  have hd : l.reverse.takeWhile (· != '/') = l.reverse :=
    takeWhile_eq_self_of_all fun c hc => by
      simpa using h c ((List.mem_reverse).1 hc)
  rw [lastComponent, hd, List.reverse_reverse]

/-! ### The shape of sanitizeFileName -/

theorem cleanup_no_slash {l : List Char} : ∀ c ∈ cleanup l, c ≠ '/' := by
  intro c hc heq
  have h2 := mem_cleanup hc
  rw [heq] at h2
  exact absurd h2 (by decide)

theorem data_underscore : ("_" : String).data = ['_'] := rfl

/-- `sanitizeFileName` splits the cleaned-up name at its last dot (which,
when present, is never at position 0) and puts `_hash` in between. -/
theorem sanitizeFileName_shape (n h : String) :
    (lastDotIdx (cleanup n.data) = none ∧
      (sanitizeFileName n h).data = cleanup n.data ++ '_' :: h.data) ∨
    (∃ i, lastDotIdx (cleanup n.data) = some i ∧ 0 < i ∧ i < (cleanup n.data).length ∧
      (sanitizeFileName n h).data =
        (cleanup n.data).take i ++ '_' :: h.data ++ (cleanup n.data).drop i) := by
  have hstrip := stripTrailingSlashes_eq_self (cleanup_no_slash (l := n.data))
  have hlast := lastComponent_eq_self (cleanup_no_slash (l := n.data))
  cases hdix : lastDotIdx (cleanup n.data) with
  | none =>
    left
    refine ⟨rfl, ?_⟩
    simp only [sanitizeFileName, jsExtname, jsBasename, data_mk, hstrip, hlast,
      extOfBase, hdix]
    simp [String.data_append, data_mk, data_underscore]
  | some i =>
    right
    have hhead : ∀ c, (cleanup n.data).head? = some c → c ≠ '.' :=
      fun c hc => cleanup_head hc
    have hiz : i ≠ 0 := by
      intro h0
      rw [h0] at hdix
      exact hhead '.' (lastDotIdx_zero_head hdix) rfl
    have hilt := lastDotIdx_lt_length hdix
    have hne2 : cleanup n.data ≠ ['.', '.'] := by
      intro hx
      exact hhead '.' (by rw [hx]; rfl) rfl
    refine ⟨i, rfl, Nat.pos_of_ne_zero hiz, hilt, ?_⟩
    have hext : extOfBase (cleanup n.data) = (cleanup n.data).drop i := by
      rw [extOfBase, hdix]
      simp [hiz, hne2]
    have hdne : (cleanup n.data).drop i ≠ [] := by
      intro hx
      rw [List.drop_eq_nil_iff] at hx
      omega
    have hsuf : ((cleanup n.data).drop i).isSuffixOf (cleanup n.data) = true := by
      have hsa := isSuffixOf_append_self ((cleanup n.data).take i) ((cleanup n.data).drop i)
      rwa [List.take_append_drop] at hsa
    have hneq : cleanup n.data ≠ (cleanup n.data).drop i := by
      intro hx
      have hlen := congrArg List.length hx
      simp only [List.length_drop] at hlen
      omega
    have htake : (cleanup n.data).length - ((cleanup n.data).drop i).length = i := by
      simp only [List.length_drop]
      omega
    simp only [sanitizeFileName, jsExtname, jsBasename, data_mk, hstrip, hlast, hext]
    rw [if_pos ⟨hdne, hsuf, hneq⟩]
    simp [String.data_append, data_mk, data_underscore, htake]
    omega

theorem mem_sanitizeFileName {n h : String} {c : Char}
    (hc : c ∈ (sanitizeFileName n h).data) :
    allowedChar c = true ∨ c ∈ h.data := by
  rcases sanitizeFileName_shape n h with ⟨_, hshape⟩ | ⟨i, _, _, _, hshape⟩
  · rw [hshape] at hc
    rcases List.mem_append.1 hc with h1 | h1
    · exact Or.inl (mem_cleanup h1)
    · rcases List.mem_cons.1 h1 with rfl | h2
      · exact Or.inl (by decide)
      · exact Or.inr h2
  · rw [hshape] at hc
    rcases List.mem_append.1 hc with h1 | h1
    · rcases List.mem_append.1 h1 with h2 | h2
      · exact Or.inl (mem_cleanup ((List.take_sublist i _).mem h2))
      · rcases List.mem_cons.1 h2 with rfl | h3
        · exact Or.inl (by decide)
        · exact Or.inr h3
    · exact Or.inl (mem_cleanup ((List.drop_sublist i _).mem h1))

theorem isHexChar_allowed {c : Char} (h : isHexChar c = true) : allowedChar c = true := by
  have hd : c.isDigit = true ∨ c = 'a' ∨ c = 'b' ∨ c = 'c' ∨ c = 'd' ∨ c = 'e' ∨ c = 'f' := by
    rw [isHexChar] at h
    simpa [or_assoc] using h
  rcases hd with hd | rfl | rfl | rfl | rfl | rfl | rfl
  · simp [allowedChar, hd]
  all_goals decide

theorem isHexChar_ne_dot {c : Char} (h : isHexChar c = true) : c ≠ '.' := by
  rintro rfl
  exact absurd h (by decide)

/-! ### NoDD, head and length of the sanitized name, via generic list
lemmas (instantiated in term mode) -/

theorem noDD_append_uh {s hd : List Char} (hs : NoDD s) (hhd : ∀ c ∈ hd, c ≠ '.') :
    NoDD (s ++ '_' :: hd) := by
  refine List.Chain'.append hs ?_ ?_
  · rw [List.chain'_cons']
    exact ⟨fun y _ hy => absurd hy.1 (by decide), noDD_of_no_dot hhd⟩
  · intro x _ y hy
    rw [List.head?_cons, Option.mem_def, Option.some_inj] at hy
    rintro ⟨_, h2⟩
    rw [← hy] at h2
    exact absurd h2 (by decide)

theorem noDD_mid {s hd : List Char} (i : Nat) (hs : NoDD s) (hhd : ∀ c ∈ hd, c ≠ '.') :
    NoDD (s.take i ++ '_' :: hd ++ s.drop i) := by
  rw [List.append_assoc, List.cons_append]
  have hsplit : List.Chain' (fun a b => ¬(a = '.' ∧ b = '.')) (s.take i ++ s.drop i) := by
    rw [List.take_append_drop]
    exact hs
  refine List.Chain'.append hsplit.left_of_append ?_ ?_
  · rw [List.chain'_cons']
    refine ⟨fun y _ hy => absurd hy.1 (by decide), ?_⟩
    refine List.Chain'.append (noDD_of_no_dot hhd) hsplit.right_of_append ?_
    rintro x hx y _ ⟨h1, _⟩
    exact hhd x (List.mem_of_getLast?_eq_some hx) h1
  · intro x _ y hy
    rw [List.head?_cons, Option.mem_def, Option.some_inj] at hy
    rintro ⟨_, h2⟩
    rw [← hy] at h2
    exact absurd h2 (by decide)

theorem head_append_uh {s hd : List Char} {c : Char}
    (hc : (s ++ '_' :: hd).head? = some c) : s.head? = some c ∨ c = '_' := by
  cases s with
  | nil =>
    rw [List.nil_append, List.head?_cons, Option.some_inj] at hc
    exact Or.inr hc.symm
  | cons a t =>
    rw [List.cons_append, List.head?_cons, Option.some_inj] at hc
    exact Or.inl (by rw [List.head?_cons, Option.some_inj]; exact hc)

theorem head_mid {s hd : List Char} {i : Nat} {c : Char}
    (hc : (s.take i ++ '_' :: hd ++ s.drop i).head? = some c) :
    s.head? = some c ∨ c = '_' := by
  rw [List.append_assoc, List.cons_append] at hc
  cases s with
  | nil =>
    rw [List.take_nil, List.nil_append, List.head?_cons, Option.some_inj] at hc
    exact Or.inr hc.symm
  | cons a t =>
    cases i with
    | zero =>
      rw [List.take_zero, List.nil_append, List.head?_cons, Option.some_inj] at hc
      exact Or.inr hc.symm
    | succ j =>
      rw [List.take_succ_cons, List.cons_append, List.head?_cons, Option.some_inj] at hc
      exact Or.inl (by rw [List.head?_cons, Option.some_inj]; exact hc)

theorem length_append_uh (s hd : List Char) :
    (s ++ '_' :: hd).length = s.length + 1 + hd.length := by
  simp only [List.length_append, List.length_cons]
  omega

theorem length_mid (s hd : List Char) (i : Nat) (hi : i ≤ s.length) :
    (s.take i ++ '_' :: hd ++ s.drop i).length = s.length + 1 + hd.length := by
  simp only [List.length_append, List.length_cons, List.length_take, List.length_drop]
  omega

section SanOpaque

/- Within this section the sanitizer is treated as opaque: everything
below reasons through `sanitizeFileName_shape` only, and keeping the
definition closed stops the elaborator from symbolically evaluating the
string pipeline.  The attribute is local to the section. -/
attribute [local irreducible] sanitizeFileName

theorem noDD_sanitizeFileName (n h : String)
    (hh : ∀ c ∈ h.data, isHexChar c = true) :
    NoDD (sanitizeFileName n h).data :=
  have hds : ∀ c ∈ h.data, c ≠ '.' := fun c hc => isHexChar_ne_dot (hh c hc)
  (sanitizeFileName_shape n h).elim
    (fun hA => Eq.mpr (congrArg NoDD hA.2) (noDD_append_uh (noDD_cleanup n.data) hds))
    (fun hB => hB.elim fun i hi =>
      Eq.mpr (congrArg NoDD hi.2.2.2) (noDD_mid i (noDD_cleanup n.data) hds))

theorem sanitizeFileName_head (n h : String) {c : Char}
    (hc : (sanitizeFileName n h).data.head? = some c) : c ≠ '.' :=
  (sanitizeFileName_shape n h).elim
    (fun hA =>
      (head_append_uh (Eq.mp (congrArg (fun l => l.head? = some c) hA.2) hc)).elim
        (fun h1 => cleanup_head h1)
        (fun h1 => Eq.mpr (congrArg (fun x => x ≠ '.') h1) (by decide)))
    (fun hB => hB.elim fun i hi =>
      (head_mid (Eq.mp (congrArg (fun l => l.head? = some c) hi.2.2.2) hc)).elim
        (fun h1 => cleanup_head h1)
        (fun h1 => Eq.mpr (congrArg (fun x => x ≠ '.') h1) (by decide)))

theorem sanitizeFileName_length (n h : String) :
    (sanitizeFileName n h).data.length = (cleanup n.data).length + 1 + h.data.length :=
  (sanitizeFileName_shape n h).elim
    (fun hA => (congrArg List.length hA.2).trans (length_append_uh _ _))
    (fun hB => hB.elim fun i hi =>
      (congrArg List.length hi.2.2.2).trans (length_mid _ _ i (Nat.le_of_lt hi.2.2.1)))

/-! ### Idempotency-breaking structure (for C9) -/

theorem replaceDisallowed_eq_self {l : List Char}
    (hall : ∀ c ∈ l, allowedChar c = true) : replaceDisallowed l = l := by
  induction l with
  | nil => rfl
  | cons c t ih =>
    rw [replaceDisallowed, List.map_cons, if_pos (hall c (by simp))]
    have ht := ih fun x hx => hall x (by simp [hx])
    rw [replaceDisallowed] at ht
    rw [ht]

theorem cleanup_eq_self {l : List Char} (hall : ∀ c ∈ l, allowedChar c = true)
    (hnd : NoDD l) (hhd : ∀ c, l.head? = some c → c ≠ '.') :
    cleanup l = l := by
  rw [cleanup_eq, replaceDisallowed_eq_self hall, removeDotDot_eq_self_of_noDD hnd,
    dropLeadingDots]
  cases l with
  | nil => rfl
  | cons c t =>
    have hc := hhd c rfl
    rw [List.dropWhile_cons]
    simp [hc]

/-! ### Claim theorems about the sanitizer -/

/-- C1: for every input filename, including names containing `../` or OS
path separators, and every hex hash, the output of `sanitizeFileName`
contains no path separator character and no `..` substring, so it never
re-introduces a traversal sequence. -/
theorem sanitizeFileName_no_traversal (n h : String)
    (hh : ∀ c ∈ h.data, isHexChar c = true) :
    '/' ∉ (sanitizeFileName n h).data ∧ '\\' ∉ (sanitizeFileName n h).data ∧
      ¬ ['.', '.'] <:+: (sanitizeFileName n h).data := by
  refine ⟨fun hmem => ?_, fun hmem => ?_,
    not_dotdot_infix_of_noDD (noDD_sanitizeFileName n h hh)⟩
  · rcases mem_sanitizeFileName hmem with ha | hb
    · exact absurd ha (by decide)
    · exact absurd (hh _ hb) (by decide)
  · rcases mem_sanitizeFileName hmem with ha | hb
    · exact absurd ha (by decide)
    · exact absurd (hh _ hb) (by decide)

/-- C5: `sanitizeFileName` computes exactly the reference algorithm of
spec 4.3: replace every character outside `[A-Za-z0-9._-]` with `_`,
remove all `..` substrings, strip leading dots, split into base name and
extension at the last dot, and reassemble as `base_suffix.ext` (the
random suffix being the same on both sides). -/
theorem sanitizeFileName_eq_specAlg (n h : String) :
    sanitizeSpecAlg n h = sanitizeFileName n h := by
  apply String.ext
  have hstep : (removeDotDot (replaceDisallowed n.data)).dropWhile (· == '.') =
      cleanup n.data := (cleanup_eq n.data).symm
  rcases sanitizeFileName_shape n h with ⟨hdix, hshape⟩ | ⟨i, hdix, _, _, hshape⟩ <;>
    rw [hshape] <;> simp only [sanitizeSpecAlg, hstep, hdix]

/-- C9: sanitization is not idempotent: re-sanitizing an
already-sanitized name with any fresh suffix yields a different name, so
the name the retrieval endpoint looks up differs from the stored one. -/
theorem sanitizeFileName_not_idempotent (n h1 h2 : String)
    (hh1 : ∀ c ∈ h1.data, isHexChar c = true) :
    sanitizeFileName (sanitizeFileName n h1) h2 ≠ sanitizeFileName n h1 := by
  intro heq
  have hfix : cleanup (sanitizeFileName n h1).data = (sanitizeFileName n h1).data :=
    cleanup_eq_self
      (fun c hc => (mem_sanitizeFileName hc).elim id fun hb => isHexChar_allowed (hh1 c hb))
      (noDD_sanitizeFileName n h1 hh1)
      (fun c hc => sanitizeFileName_head n h1 hc)
  have hlen : (sanitizeFileName (sanitizeFileName n h1) h2).data.length =
      (sanitizeFileName n h1).data.length := by rw [heq]
  rw [sanitizeFileName_length, hfix] at hlen
  omega

end SanOpaque

/-! ### Witnesses for the sanitizer claims -/

theorem sanitizeFileName_no_traversal_witness :
    (∀ c ∈ ("0123456789abcdef" : String).data, isHexChar c = true) ∧
      ('/' ∉ (sanitizeFileName "../../etc/passwd" "0123456789abcdef").data ∧
       '\\' ∉ (sanitizeFileName "../../etc/passwd" "0123456789abcdef").data ∧
       ¬ ['.', '.'] <:+: (sanitizeFileName "../../etc/passwd" "0123456789abcdef").data) :=
  ⟨by decide, sanitizeFileName_no_traversal "../../etc/passwd" "0123456789abcdef" (by decide)⟩

theorem sanitizeFileName_not_idempotent_witness :
    (∀ c ∈ ("0123456789abcdef" : String).data, isHexChar c = true) ∧
      sanitizeFileName (sanitizeFileName "report.pdf" "0123456789abcdef") "aabbccddeeff0011" ≠
        sanitizeFileName "report.pdf" "0123456789abcdef" :=
  ⟨by decide,
    sanitizeFileName_not_idempotent "report.pdf" "0123456789abcdef" "aabbccddeeff0011"
      (by decide)⟩

/-! ### Rate limiter -/

theorem runRL_accepts (ip : String) (t11 : Int) :
    ∀ (ts : List Int) (st : RLState) (prev : List Int),
      st ip = prev →
      (∀ x, x ∈ prev ∨ x ∈ ts → x ≤ t11 ∧ t11 - x < RATE_LIMIT_WINDOW) →
      prev.length + ts.length ≤ MAX_UPLOADS_PER_MINUTE →
      (runRL ip ts st).1 = List.replicate ts.length true ∧
      (runRL ip ts st).2 ip = prev ++ ts ∧
      ∀ k, k ≠ ip → (runRL ip ts st).2 k = st k := by
  intro ts
  induction ts with
  | nil =>
    intro st prev hprev _ _
    refine ⟨rfl, ?_, fun k _ => rfl⟩
    rw [runRL, List.append_nil]
    exact hprev
  | cons t rest ih =>
    intro st prev hprev hwin hlen
    have hf : List.filter (fun x => decide (t - x < RATE_LIMIT_WINDOW)) prev = prev := by
      apply List.filter_eq_self.2
      intro a ha
      have h2 := hwin a (Or.inl ha)
      have h3 := hwin t (Or.inr (by simp))
      exact decide_eq_true (by omega)
    have hcnt : ¬ MAX_UPLOADS_PER_MINUTE ≤ prev.length := by
      simp only [List.length_cons] at hlen
      omega
    have hstep : checkRateLimit ip t st =
        (true, fun k => if k = ip then prev ++ [t] else st k) := by
      simp only [checkRateLimit, hprev, hf]
      rw [if_neg hcnt]
    have hwin' : ∀ x, x ∈ prev ++ [t] ∨ x ∈ rest → x ≤ t11 ∧ t11 - x < RATE_LIMIT_WINDOW := by
      intro x hx
      apply hwin
      rcases hx with hx | hx
      · rcases List.mem_append.1 hx with hx | hx
        · exact Or.inl hx
        · simp at hx
          rw [hx]
          exact Or.inr (by simp)
      · exact Or.inr (by simp [hx])
    have hlen' : (prev ++ [t]).length + rest.length ≤ MAX_UPLOADS_PER_MINUTE := by
      simp only [List.length_append, List.length_singleton, List.length_cons,
        List.length_nil] at hlen ⊢
      omega
    obtain ⟨ih1, ih2, ih3⟩ := ih (fun k => if k = ip then prev ++ [t] else st k)
      (prev ++ [t]) (by simp) hwin' hlen'
    refine ⟨?_, ?_, ?_⟩
    · simp only [runRL, hstep, List.length_cons, List.replicate_succ]
      rw [ih1]
    · simp only [runRL, hstep]
      rw [ih2, List.append_assoc]
      rfl
    · intro k hk
      simp only [runRL, hstep]
      rw [ih3 k hk, if_neg hk]

/-- C3: with threshold 10 and window 60 s, a client whose previous 10
calls were all accepted at times lying within the trailing window of
`t11` is rejected at `t11`, while a different client with fewer than 10
recorded attempts in its own window is accepted. -/
theorem rateLimit_tenth_rejected (ip ip2 : String) (ts : List Int) (t11 tq : Int)
    (st : RLState)
    (hempty : st ip = [])
    (hlen : ts.length = 10)
    (hwin : ∀ x ∈ ts, x ≤ t11 ∧ t11 - x < RATE_LIMIT_WINDOW)
    (hne : ip2 ≠ ip)
    (hq : ((st ip2).filter (fun x => decide (tq - x < RATE_LIMIT_WINDOW))).length <
      MAX_UPLOADS_PER_MINUTE) :
    (runRL ip ts st).1 = List.replicate 10 true ∧
    (checkRateLimit ip t11 (runRL ip ts st).2).1 = false ∧
    (checkRateLimit ip2 tq (runRL ip ts st).2).1 = true := by
  have hM : MAX_UPLOADS_PER_MINUTE = 10 := rfl
  obtain ⟨h1, h2, h3⟩ := runRL_accepts ip t11 ts st [] hempty
    (by
      intro x hx
      rcases hx with hx | hx
      · simp at hx
      · exact hwin x hx)
    (by simp [hlen, hM])
  rw [List.nil_append] at h2
  refine ⟨by rw [h1, hlen], ?_, ?_⟩
  · have hfull : List.filter (fun x => decide (t11 - x < RATE_LIMIT_WINDOW)) ts = ts := by
      apply List.filter_eq_self.2
      intro a ha
      exact decide_eq_true (hwin a ha).2
    simp only [checkRateLimit, h2, hfull]
    rw [if_pos (by rw [hlen, hM])]
  · simp only [checkRateLimit, h3 ip2 hne]
    rw [if_neg (by omega)]

/-- Witness for C3: ten accepted calls at time 0 from client "a", then
the eleventh call from "a" is rejected while a first call from "b" is
accepted. -/
theorem rateLimit_tenth_rejected_witness :
    (runRL "a" (List.replicate 10 0) (fun _ => [])).1 = List.replicate 10 true ∧
    (checkRateLimit "a" 0 (runRL "a" (List.replicate 10 0) (fun _ => [])).2).1 = false ∧
    (checkRateLimit "b" 0 (runRL "a" (List.replicate 10 0) (fun _ => [])).2).1 = true :=
  rateLimit_tenth_rejected "a" "b" (List.replicate 10 0) 0 0 (fun _ => [])
    rfl (by decide) (by decide) (by decide) (by decide)

/-- C6 counterexample: a rejected call leaves the stored list untouched,
so a timestamp older than the window survives `checkRateLimit`.  Client
"a" has one stale attempt (time 0) and ten recent ones (time 90000); at
time 100000 the call is rejected and the stale timestamp is still
stored. -/
theorem checkRateLimit_stale_after_reject :
    (checkRateLimit "a" 100000 (fun _ => (0 : Int) :: List.replicate 10 90000)).1 = false ∧
    (0 : Int) ∈ (checkRateLimit "a" 100000
      (fun _ => (0 : Int) :: List.replicate 10 90000)).2 "a" ∧
    ¬ ((100000 : Int) - 0 < RATE_LIMIT_WINDOW) := by
  decide

/-- C6 amended: pruning happens only on accepted calls.  After a call
that returns `true` the stored list for that client holds only
timestamps within the window; a call that returns `false` leaves the
whole map unchanged. -/
theorem checkRateLimit_prune (ip : String) (now : Int) (st : RLState) :
    ((checkRateLimit ip now st).1 = true →
      ∀ t ∈ (checkRateLimit ip now st).2 ip, now - t < RATE_LIMIT_WINDOW) ∧
    ((checkRateLimit ip now st).1 = false → (checkRateLimit ip now st).2 = st) := by
  by_cases hc : MAX_UPLOADS_PER_MINUTE ≤
      (List.filter (fun x => decide (now - x < RATE_LIMIT_WINDOW)) (st ip)).length
  · constructor
    · intro h
      exfalso
      simp [checkRateLimit, hc] at h
    · intro _
      simp [checkRateLimit, hc]
  · constructor
    · intro _ t ht
      simp [checkRateLimit, hc, List.mem_filter] at ht
      rcases ht with ⟨_, h2⟩ | h2
      · exact h2
      · rw [h2]
        have hW : RATE_LIMIT_WINDOW = 60000 := rfl
        omega
    · intro h
      exfalso
      simp [checkRateLimit, hc] at h

/-- Witness for the amended C6 at a concrete accepted call. -/
theorem checkRateLimit_prune_witness :
    (checkRateLimit "a" 5 (fun _ => [])).1 = true ∧ (5 : Int) - 5 < RATE_LIMIT_WINDOW :=
  ⟨by decide, (checkRateLimit_prune "a" 5 (fun _ => [])).1 (by decide) 5 (by decide)⟩

/-! ### Upload gate and pipeline -/

section PipelineOpaque

attribute [local irreducible] sanitizeFileName

/-- C7: the upload gate short-circuits with the extension check first:
a file whose extension is outside the allow-list is rejected with the
unsupported-extension error even when its MIME type is also disallowed,
and the MIME check decides the outcome only when the extension check
passes. -/
theorem fileFilter_order (f : IncomingFile) :
    (isAllowedExtension f.originalname = false → fileFilter f = Except.error extErrorMsg) ∧
    (isAllowedExtension f.originalname = true → isAllowedMimeType f.mimetype = false →
      fileFilter f = Except.error mimeErrorMsg) ∧
    (isAllowedExtension f.originalname = true → isAllowedMimeType f.mimetype = true →
      fileFilter f = Except.ok ()) :=
  ⟨fun h1 => by simp [fileFilter, h1],
   fun h1 h2 => by simp [fileFilter, h1, h2],
   fun h1 h2 => by simp [fileFilter, h1, h2]⟩

/-- C4: on every rejected upload the pipeline adds no file to the disk
(each path afterwards is either unchanged or empty); and the
post-materialization size check of the final handler deletes the stored
file before returning its 400 error while leaving every other path
alone. -/
theorem upload_no_orphans (uploadDir ip : String) (now : Int) (upload : Option IncomingFile)
    (hash : String) (st : RLState) (disk : Disk) :
    ((handleUploadPost uploadDir ip now upload hash st disk).1.success = false →
      ∀ q, (handleUploadPost uploadDir ip now upload hash st disk).2.2 q = disk q ∨
        (handleUploadPost uploadDir ip now upload hash st disk).2.2 q = none) ∧
    (∀ (f : ReqFile) (d : Disk), checkFileSize f = false →
      (uploadFinalHandler (some f) d).1.status = 400 ∧
      (uploadFinalHandler (some f) d).1.success = false ∧
      (uploadFinalHandler (some f) d).2 f.path = none ∧
      ∀ q, q ≠ f.path → (uploadFinalHandler (some f) d).2 q = d q) := by
  constructor
  · intro hs q
    cases hb : (checkRateLimit ip now st).1 with
    | false => simp [handleUploadPost, hb]
    | true =>
      cases upload with
      | none => simp [handleUploadPost, hb, uploadFinalHandler]
      | some f =>
        cases hff : fileFilter f with
        | error e => simp [handleUploadPost, hb, hff]
        | ok u =>
          by_cases hsz : MAX_FILE_SIZE < f.size
          · simp [handleUploadPost, hb, hff, hsz]
          · exfalso
            have hle : f.size ≤ MAX_FILE_SIZE := Nat.not_lt.1 hsz
            simp [handleUploadPost, hb, hff, hsz, uploadFinalHandler, checkFileSize, hle] at hs
  · intro f d hcf
    refine ⟨?_, ?_, ?_, ?_⟩ <;> simp [uploadFinalHandler, hcf]
    intro q hq
    exact fun h => absurd h hq

/-- C8: an accepted upload reports in `size` exactly the byte length
stored on disk under the reported filename, and that length is at most
the 5 MiB ceiling; a file larger than the ceiling is never accepted. -/
theorem upload_size_faithful (uploadDir ip : String) (now : Int) (upload : Option IncomingFile)
    (hash : String) (st : RLState) (disk : Disk) :
    ((handleUploadPost uploadDir ip now upload hash st disk).1.success = true →
      ∃ f name, upload = some f ∧
        (handleUploadPost uploadDir ip now upload hash st disk).1.filename = some name ∧
        (handleUploadPost uploadDir ip now upload hash st disk).1.size = some f.size ∧
        (handleUploadPost uploadDir ip now upload hash st disk).2.2 (uploadDir ++ "/" ++ name) =
          some f.size ∧
        f.size ≤ MAX_FILE_SIZE) ∧
    (∀ f, upload = some f → MAX_FILE_SIZE < f.size →
      (handleUploadPost uploadDir ip now upload hash st disk).1.success = false) := by
  constructor
  · intro hs
    cases hb : (checkRateLimit ip now st).1 with
    | false => simp [handleUploadPost, hb] at hs
    | true =>
      cases upload with
      | none => simp [handleUploadPost, hb, uploadFinalHandler] at hs
      | some f =>
        cases hff : fileFilter f with
        | error e => simp [handleUploadPost, hb, hff] at hs
        | ok u =>
          by_cases hsz : MAX_FILE_SIZE < f.size
          · simp [handleUploadPost, hb, hff, hsz] at hs
          · have hle : f.size ≤ MAX_FILE_SIZE := Nat.not_lt.1 hsz
            refine ⟨f, sanitizeFileName f.originalname hash, rfl, ?_, ?_, ?_, hle⟩ <;>
              simp [handleUploadPost, hb, hff, hsz, uploadFinalHandler, checkFileSize, hle]
  · intro f hf hsz
    cases hb : (checkRateLimit ip now st).1 with
    | false => simp [handleUploadPost, hb]
    | true =>
      rw [hf]
      cases hff : fileFilter f with
      | error e => simp [handleUploadPost, hb, hff]
      | ok u => simp [handleUploadPost, hb, hff, hsz]

end PipelineOpaque

/-! ### Witnesses for the pipeline claims -/

theorem fileFilter_order_witness :
    isAllowedExtension "evil.exe" = false ∧
      isAllowedMimeType "application/x-msdownload" = false ∧
      fileFilter ⟨"evil.exe", "application/x-msdownload", 10⟩ = Except.error extErrorMsg :=
  ⟨by decide, by decide,
    (fileFilter_order ⟨"evil.exe", "application/x-msdownload", 10⟩).1 (by decide)⟩

theorem upload_no_orphans_witness :
    (handleUploadPost "/srv/uploads" "c" 0 (some ⟨"evil.exe", "text/plain", 10⟩)
        "0123456789abcdef" (fun _ => []) (fun _ => none)).1.success = false ∧
    (handleUploadPost "/srv/uploads" "c" 0 (some ⟨"evil.exe", "text/plain", 10⟩)
        "0123456789abcdef" (fun _ => []) (fun _ => none)).2.2 "/srv/uploads/x.txt" = none :=
  ⟨by decide,
    ((upload_no_orphans "/srv/uploads" "c" 0 (some ⟨"evil.exe", "text/plain", 10⟩)
        "0123456789abcdef" (fun _ => []) (fun _ => none)).1 (by decide)
      "/srv/uploads/x.txt").elim id id⟩

theorem upload_size_faithful_witness :
    (handleUploadPost "/srv/uploads" "c" 0 (some ⟨"report.pdf", "application/pdf", 1024⟩)
        "0123456789abcdef" (fun _ => []) (fun _ => none)).1.success = true ∧
    (∃ f name, (some (⟨"report.pdf", "application/pdf", 1024⟩ : IncomingFile)) = some f ∧
      (handleUploadPost "/srv/uploads" "c" 0 (some ⟨"report.pdf", "application/pdf", 1024⟩)
          "0123456789abcdef" (fun _ => []) (fun _ => none)).1.filename = some name ∧
      (handleUploadPost "/srv/uploads" "c" 0 (some ⟨"report.pdf", "application/pdf", 1024⟩)
          "0123456789abcdef" (fun _ => []) (fun _ => none)).1.size = some f.size ∧
      (handleUploadPost "/srv/uploads" "c" 0 (some ⟨"report.pdf", "application/pdf", 1024⟩)
          "0123456789abcdef" (fun _ => []) (fun _ => none)).2.2
          ("/srv/uploads" ++ "/" ++ name) = some f.size ∧
      f.size ≤ MAX_FILE_SIZE) :=
  ⟨by decide,
    (upload_size_faithful "/srv/uploads" "c" 0 (some ⟨"report.pdf", "application/pdf", 1024⟩)
        "0123456789abcdef" (fun _ => []) (fun _ => none)).1 (by decide)⟩

/-! ### Path resolution -/

theorem data_slash : ("/" : String).data = ['/'] := rfl

theorem splitSeg_ne_nil (l : List Char) : splitSeg l ≠ [] := by
  cases l with
  | nil => simp [splitSeg]
  | cons c rest =>
    rw [splitSeg]
    by_cases hc : c = '/'
    · rw [if_pos hc]
      simp
    · rw [if_neg hc]
      cases hs : splitSeg rest with
      | nil => simp
      | cons s ss => simp

theorem splitSeg_append (l₁ l₂ : List Char) :
    splitSeg (l₁ ++ '/' :: l₂) = splitSeg l₁ ++ splitSeg l₂ := by
  induction l₁ with
  | nil => simp [splitSeg]
  | cons c rest ih =>
    rw [List.cons_append, splitSeg, splitSeg]
    by_cases hc : c = '/'
    · rw [if_pos hc, if_pos hc, ih, List.cons_append]
    · rw [if_neg hc, if_neg hc, ih]
      cases hs : splitSeg rest with
      | nil => exact absurd hs (splitSeg_ne_nil rest)
      | cons s ss => simp

theorem splitSeg_no_slash {l : List Char} (h : ∀ c ∈ l, c ≠ '/') : splitSeg l = [l] := by
  induction l with
  | nil => rfl
  | cons c rest ih =>
    rw [splitSeg, if_neg (h c (by simp))]
    rw [ih fun x hx => h x (by simp [hx])]

theorem renderSegs_append_single (D : List (List Char)) (n : List Char) :
    renderSegs (D ++ [n]) = renderSegs D ++ (if D = [] then n else '/' :: n) := by
  induction D with
  | nil => simp [renderSegs]
  | cons d D' ih =>
    by_cases hD : D' = []
    · subst hD
      simp [renderSegs]
    · rw [List.cons_append, renderSegs]
      have hne : D' ++ [n] ≠ [] := by simp
      rw [if_neg hne, ih, if_neg hD]
      simp [renderSegs, hD, List.append_assoc]

theorem resolveStep_push (acc : List (List Char)) {n : List Char}
    (h1 : n ≠ []) (h2 : n ≠ ['.']) (h3 : n ≠ ['.', '.']) :
    resolveStep acc n = acc ++ [n] := by
  rw [resolveStep, if_neg (by simp [h1, h2]), if_neg h3]

/-- Joining a clean, non-special last component onto any base directory
and resolving keeps the resolved base as a prefix: the `startsWith`
guard of the retrieval endpoint always succeeds on such names. -/
theorem resolvePath_join (ud name : String)
    (hns : ∀ c ∈ name.data, c ≠ '/')
    (h1 : name.data ≠ []) (h2 : name.data ≠ ['.']) (h3 : name.data ≠ ['.', '.']) :
    jsStartsWith (resolvePath (ud ++ "/" ++ name)) (resolvePath ud) = true := by
  have hdata : (ud ++ "/" ++ name).data = ud.data ++ '/' :: name.data := by
    simp [String.data_append, data_slash]
  simp only [jsStartsWith, resolvePath, data_mk]
  rw [hdata, splitSeg_append, splitSeg_no_slash hns, List.foldl_append, List.foldl_cons,
    List.foldl_nil, resolveStep_push _ h1 h2 h3, renderSegs_append_single]
  by_cases hD : (splitSeg ud.data).foldl resolveStep [] = []
  · rw [hD]
    simp [renderSegs, List.isPrefixOf]
  · rw [if_neg hD]
    have hp := isPrefixOf_append_self
      ('/' :: renderSegs ((splitSeg ud.data).foldl resolveStep [])) ('/' :: name.data)
    rw [List.cons_append] at hp
    exact hp

section GetOpaque

attribute [local irreducible] sanitizeFileName

theorem underscore_mem_sanitizeFileName (n h : String) :
    '_' ∈ (sanitizeFileName n h).data := by
  rcases sanitizeFileName_shape n h with ⟨_, hshape⟩ | ⟨i, _, _, _, hshape⟩ <;>
    rw [hshape] <;> simp

theorem sanitizeFileName_no_slash (n h : String)
    (hh : ∀ c ∈ h.data, isHexChar c = true) :
    ∀ c ∈ (sanitizeFileName n h).data, c ≠ '/' := by
  intro c hc heq
  rcases mem_sanitizeFileName hc with ha | hb
  · rw [heq] at ha
    exact absurd ha (by decide)
  · have hx := hh c hb
    rw [heq] at hx
    exact absurd hx (by decide)

theorem sanitizeFileName_ne_specials (n h : String) :
    (sanitizeFileName n h).data ≠ [] ∧ (sanitizeFileName n h).data ≠ ['.'] ∧
      (sanitizeFileName n h).data ≠ ['.', '.'] := by
  have hu := underscore_mem_sanitizeFileName n h
  refine ⟨?_, ?_, ?_⟩ <;> intro hx <;> rw [hx] at hu <;> simp at hu

theorem getUploads_startsWith (ud req h : String)
    (hh : ∀ c ∈ h.data, isHexChar c = true) :
    jsStartsWith (resolvePath (ud ++ "/" ++ sanitizeFileName req h)) (resolvePath ud) =
      true := by
  obtain ⟨h1, h2, h3⟩ := sanitizeFileName_ne_specials req h
  exact resolvePath_join ud (sanitizeFileName req h) (sanitizeFileName_no_slash req h hh)
    h1 h2 h3

/-- C10: the Forbidden branch of `GET /uploads/:filename` is
unreachable: since the requested name is sanitized first, the joined
path always resolves to a descendant of the upload directory and the
`startsWith` guard never fails, whatever the upload directory, the
request and the filesystem contents are. -/
theorem getUploads_forbidden_unreachable (ud req h : String) (fsE : String → Bool)
    (hh : ∀ c ∈ h.data, isHexChar c = true) :
    getUploadsHandler ud req h fsE ≠ GetResult.forbidden := by
  intro hEq
  simp only [getUploadsHandler] at hEq
  cases hfs : fsE (ud ++ "/" ++ sanitizeFileName req h) with
  | false =>
    rw [hfs] at hEq
    simp at hEq
  | true =>
    rw [hfs, getUploads_startsWith ud req h hh] at hEq
    simp at hEq

/-- C2: the retrieval endpoint never serves a path outside the upload
directory: when the looked-up file does not exist the answer is
NotFound; when the resolved path would fail the descendant check the
answer is Forbidden (vacuously, as the check never fails); and bytes
are served only for an existing file whose resolved path extends the
resolved upload directory. -/
theorem getUploads_guard (ud req h : String) (fsE : String → Bool)
    (hh : ∀ c ∈ h.data, isHexChar c = true) :
    (fsE (ud ++ "/" ++ sanitizeFileName req h) = false →
      getUploadsHandler ud req h fsE = GetResult.notFound) ∧
    (jsStartsWith (resolvePath (ud ++ "/" ++ sanitizeFileName req h)) (resolvePath ud) =
        false →
      getUploadsHandler ud req h fsE = GetResult.forbidden) ∧
    (∀ p, getUploadsHandler ud req h fsE = GetResult.served p →
      fsE (ud ++ "/" ++ sanitizeFileName req h) = true ∧
      jsStartsWith p (resolvePath ud) = true ∧
      p = resolvePath (ud ++ "/" ++ sanitizeFileName req h)) := by
  refine ⟨?_, ?_, ?_⟩
  · intro hf
    simp [getUploadsHandler, hf]
  · intro hsw
    rw [getUploads_startsWith ud req h hh] at hsw
    cases hsw
  · intro p hp
    cases hfs : fsE (ud ++ "/" ++ sanitizeFileName req h) with
    | false =>
      simp only [getUploadsHandler] at hp
      rw [hfs] at hp
      simp at hp
    | true =>
      simp only [getUploadsHandler] at hp
      rw [hfs, getUploads_startsWith ud req h hh] at hp
      simp at hp
      refine ⟨rfl, ?_, hp.symm⟩
      rw [← hp]
      exact getUploads_startsWith ud req h hh

end GetOpaque

/-! ### Witnesses for the retrieval-endpoint claims -/

theorem getUploads_forbidden_unreachable_witness :
    (∀ c ∈ ("0123456789abcdef" : String).data, isHexChar c = true) ∧
      getUploadsHandler "/srv/uploads" "../../etc/passwd" "0123456789abcdef"
        (fun _ => false) ≠ GetResult.forbidden :=
  ⟨by decide,
    getUploads_forbidden_unreachable "/srv/uploads" "../../etc/passwd" "0123456789abcdef"
      (fun _ => false) (by decide)⟩

theorem getUploads_guard_witness :
    (fun _ => false) ("/srv/uploads" ++ "/" ++
        sanitizeFileName "../../etc/passwd" "0123456789abcdef") = false ∧
      getUploadsHandler "/srv/uploads" "../../etc/passwd" "0123456789abcdef"
        (fun _ => false) = GetResult.notFound :=
  ⟨rfl,
    (getUploads_guard "/srv/uploads" "../../etc/passwd" "0123456789abcdef" (fun _ => false)
      (by decide)).1 rfl⟩
